import Mathlib

/-!
Shallow embedding of `src/Bridge/src/languageService.ts` (module `Bridge`):
the versioned `ScriptSnapshot` text buffer and the completion-pruning logic of
`LanguageServiceHost`.  JavaScript strings are modelled as `List Char`;
JavaScript numbers that can go negative (offsets computed by subtraction) are
modelled as `Int`.  Operations that can throw a `TypeError` at runtime (calling
a method on `undefined`) return `Option`, with `none` standing for the thrown
exception.  The vendored TypeScript compiler (`TypeScript.TextChangeRange`,
`TypeScript.TextUtilities`) is not part of the repository's own sources here;
those pieces are modelled from the specification and marked as such.
-/

set_option autoImplicit false

namespace Bridge

/-- Clamp an integer index into `[0, len]`, as `String.prototype.substring`
does with its arguments. -/
def jsClamp (len : Nat) (i : Int) : Nat :=
  (max 0 (min i (len : Int))).toNat

/-- JavaScript `String.prototype.substring(start, end)`: both arguments are
clamped into `[0, length]` and swapped when `start > end`; the characters in
the half-open range between them are returned.  Never throws. -/
def jsSubstring (s : List Char) (start finish : Int) : List Char :=
  let a := jsClamp s.length start
  let b := jsClamp s.length finish
  (s.take (max a b)).drop (min a b)

/-- JavaScript `String.prototype.charAt(i)`: a one-character string for an
in-range index, the empty string otherwise.  Never throws. -/
def jsCharAt (s : List Char) (i : Int) : List Char :=
  if i < 0 then []
  else
    match s.get? i.toNat with
    | some c => [c]
    | none => []

/-- JavaScript `Array.prototype.slice(start)` (single-argument form):
a negative start is relative to the end, a start beyond the length yields
the empty array. -/
def jsSlice {α : Type} (l : List α) (start : Int) : List α :=
  let len : Int := l.length
  let k : Int := if start < 0 then max (len + start) 0 else min start len
  l.drop k.toNat

/-- `TypeScript.TextChangeRange` built from `TextSpan.fromBounds(spanStart,
spanEnd)` and a replacement length.  The spec (§3) records it as
`{ spanStart, spanEnd, newLength }`: the half-open range `[spanStart, spanEnd)`
of the pre-edit content that was replaced, and the length of the replacement. -/
structure TextChangeRange where
  spanStart : Int
  spanEnd : Int
  newLength : Int
deriving DecidableEq, Repr

/-- Net length delta of one recorded change: `newLength - (spanEnd - spanStart)`
(spec §4.1). -/
def changeRangeDelta (r : TextChangeRange) : Int :=
  r.newLength - (r.spanEnd - r.spanStart)

/-- Modelled from the spec: merging two consecutive change ranges into one
whose span covers all affected original-text positions and whose net length
delta is the sum of the two individual deltas (spec §4.1, the collapse step of
`TypeScript.TextChangeRange.collapseChangesAcrossMultipleVersions`, vendored
compiler code that is not under `src/`). -/
def mergeChangeRange (r1 r2 : TextChangeRange) : TextChangeRange :=
  let oldStart1 := r1.spanStart
  let oldEnd1 := r1.spanEnd
  let newEnd1 := oldStart1 + r1.newLength
  let oldStart2 := r2.spanStart
  let oldEnd2 := r2.spanEnd
  let newEnd2 := oldStart2 + r2.newLength
  let oldStartN := min oldStart1 oldStart2
  let oldEndN := max oldEnd1 (oldEnd1 + (oldEnd2 - newEnd1))
  let newEndN := max newEnd2 (newEnd2 + (newEnd1 - oldEnd2))
  ⟨oldStartN, oldEndN, newEndN - oldStartN⟩

/-- Modelled from the spec:
`TypeScript.TextChangeRange.collapseChangesAcrossMultipleVersions` (vendored
compiler code not under `src/`) collapses a window of change ranges, oldest
first, into one merged `ChangeRange` relative to the oldest content version in
the window (spec §4.1). -/
def collapseChangesAcrossMultipleVersions : List TextChangeRange → TextChangeRange
  | [] => ⟨0, 0, 0⟩
  | c :: cs => cs.foldl mergeChangeRange c

/-- Modelled from the spec: `TypeScript.TextUtilities.parseLineStarts`
(vendored compiler code not under `src/`) derives the ordered offsets at which
lines start: offset 0 plus the offset following each newline (spec §3,
`lineStarts`). -/
def lineStartsAux : List Char → Nat → List Nat
  | [], _ => []
  | c :: rest, i => if c = '\n' then (i + 1) :: lineStartsAux rest (i + 1) else lineStartsAux rest (i + 1)

/-- Modelled from the spec: line-start offsets of a content string, recomputed
on every content mutation (spec §3). -/
def parseLineStarts (s : List Char) : List Nat :=
  0 :: lineStartsAux s 0

/-- `ScriptSnapshot`'s private fields (`languageService.ts` lines 35-43).
The TypeScript `open` field is called `openFlag` (`open` is a Lean keyword). -/
structure ScriptSnapshot where
  version : Nat
  openFlag : Bool
  content : List Char
  changes : List TextChangeRange
  lineStartPositions : List Nat
deriving DecidableEq, Repr

/-- `this.maxChanges = 100` (`languageService.ts` line 42). -/
def maxChanges : Nat := 100

/-- `ScriptSnapshot.updateContent` (lines 50-58): optionally clears the change
history, replaces the content, recomputes the line starts and increments the
version.  The source additionally returns `true` unconditionally. -/
def ScriptSnapshot.updateContent (b : ScriptSnapshot) (content : List Char)
    (resetChanges : Bool) : ScriptSnapshot :=
  let b' := if resetChanges then { b with changes := [] } else b
  { b' with
    content := content
    lineStartPositions := parseLineStarts content
    version := b'.version + 1 }

/-- `ScriptSnapshot` constructor (lines 44-48): `version = 0`, `open = true`,
then `updateContent(readFileContents(file))` with the default
`resetChanges = true`.  The disk read is the external source-reader
collaborator; its result is the `initialContent` argument here. -/
def mkScriptSnapshot (initialContent : List Char) : ScriptSnapshot :=
  ScriptSnapshot.updateContent ⟨0, true, [], [], []⟩ initialContent true

/-- `ScriptSnapshot.addEdit` (lines 76-86): clears the whole history when it
is already at `maxChanges`, splices the replacement into the content using
JavaScript `substring` semantics, records the change range
`⟨offset, offset + length, replacementText.length⟩`, and delegates to
`updateContent` with `resetChanges = false`. -/
def ScriptSnapshot.addEdit (b : ScriptSnapshot) (offset length : Int)
    (replacementText : List Char) : ScriptSnapshot :=
  let b' := if b.changes.length ≥ maxChanges then { b with changes := [] } else b
  let beforeEdit := jsSubstring b'.content 0 offset
  let afterEdit := jsSubstring b'.content (offset + length) (b'.content.length : Int)
  let newContent := beforeEdit ++ replacementText ++ afterEdit
  let textChangeRange : TextChangeRange := ⟨offset, offset + length, (replacementText.length : Int)⟩
  ScriptSnapshot.updateContent { b' with changes := b'.changes ++ [textChangeRange] } newContent false

/-- `ScriptSnapshot.getText` (lines 88-90): `content.substring(start, end)`. -/
def ScriptSnapshot.getText (b : ScriptSnapshot) (start finish : Int) : List Char :=
  jsSubstring b.content start finish

/-- The three possible results of `getTextChangeRangeSinceVersion`: the
`TextChangeRange.unchanged` sentinel object, a freshly collapsed range, or
`null` (unknown).  The sentinel is a distinguished object in the source,
compared by identity, hence a separate constructor. -/
inductive ChangeRangeResult where
  | unchanged
  | collapsed (r : TextChangeRange)
  | unknown
deriving DecidableEq, Repr

/-- `ScriptSnapshot.getTextChangeRangeSinceVersion` (lines 100-110). -/
def ScriptSnapshot.getTextChangeRangeSinceVersion (b : ScriptSnapshot)
    (version : Nat) : ChangeRangeResult :=
  if b.version = version then
    ChangeRangeResult.unchanged
  else if (b.version : Int) - (version : Int) ≤ (b.changes.length : Int) then
    ChangeRangeResult.collapsed (collapseChangesAcrossMultipleVersions
      (jsSlice b.changes ((b.changes.length : Int) - ((b.version : Int) - (version : Int)))))
  else
    ChangeRangeResult.unknown

/-- JavaScript `String.prototype.toUpperCase` on a single character: the
default (locale-independent) full Unicode uppercase mapping, which can expand
one character into several.  ASCII lowercase letters shift into `A`-`Z`.  The
sixteen explicitly listed code points are, per the Unicode character database
(`UnicodeData.txt` single mappings plus the unconditional `SpecialCasing.txt`
mappings), exactly the non-ASCII characters whose uppercase mapping begins
with an ASCII character: U+00DF `ß` and U+FB00-U+FB06 (ligature) expansions,
U+0131 (dotless i) and U+017F (long s) to `I`/`S`, and U+01F0 /
U+1E96-U+1E9A to an ASCII letter followed by a combining mark.  Every other
character maps to itself or to a string whose first character lies beyond the
ASCII range, so keeping it unchanged here is extensionally equivalent for
every comparison `validMethodChar` performs against its ASCII bounds. -/
def jsToUpperCase (c : Char) : List Char :=
  if 'a' ≤ c ∧ c ≤ 'z' then [Char.ofNat (c.toNat - 32)]
  else if c = Char.ofNat 0xDF then ['S', 'S']
  else if c = Char.ofNat 0x131 then ['I']
  else if c = Char.ofNat 0x17F then ['S']
  else if c = Char.ofNat 0x1F0 then ['J', Char.ofNat 0x30C]
  else if c = Char.ofNat 0x1E96 then ['H', Char.ofNat 0x331]
  else if c = Char.ofNat 0x1E97 then ['T', Char.ofNat 0x308]
  else if c = Char.ofNat 0x1E98 then ['W', Char.ofNat 0x30A]
  else if c = Char.ofNat 0x1E99 then ['Y', Char.ofNat 0x30A]
  else if c = Char.ofNat 0x1E9A then ['A', Char.ofNat 0x2BE]
  else if c = Char.ofNat 0xFB00 then ['F', 'F']
  else if c = Char.ofNat 0xFB01 then ['F', 'I']
  else if c = Char.ofNat 0xFB02 then ['F', 'L']
  else if c = Char.ofNat 0xFB03 then ['F', 'F', 'I']
  else if c = Char.ofNat 0xFB04 then ['F', 'F', 'L']
  else if c = Char.ofNat 0xFB05 then ['S', 'T']
  else if c = Char.ofNat 0xFB06 then ['S', 'T']
  else [c]

/-- JavaScript `String.prototype.toUpperCase` on a string: the concatenation
of the per-character mappings. -/
def jsToUpperCaseStr : List Char → List Char
  | [] => []
  | c :: cs => jsToUpperCase c ++ jsToUpperCaseStr cs

/-- JavaScript `<` on two strings: lexicographic comparison (a proper prefix
is smaller).  JavaScript compares UTF-16 code units; on comparisons whose
bounds are ASCII characters — the only ones `validMethodChar` performs —
this coincides with comparing the character values, since every non-ASCII
character's code units all exceed the ASCII range. -/
def jsStringLt : List Char → List Char → Bool
  | [], [] => false
  | [], _ :: _ => true
  | _ :: _, [] => false
  | a :: as, b :: bs => if a < b then true else if b < a then false else jsStringLt as bs

/-- JavaScript `<=` on two strings: `s <= t` is `!(t < s)`. -/
def jsStringLe (s t : List Char) : Bool := !(jsStringLt t s)

/-- `LanguageServiceHost.validMethodChar` (lines 293-307): uppercase the
argument string with the full Unicode mapping and test it against the ASCII
letter and digit ranges, parentheses, `$` and `_` by JavaScript string
comparison.  The empty string (a `charAt` miss) fails every comparison.
Besides ASCII letters, digits, `(`, `)`, `$` and `_`, this accepts the
characters whose uppercase mapping lands between `"A"` and `"Z"`, such as
U+00DF `ß` (uppercased to `"SS"`).  An `undefined` argument is the crash
case handled at the call sites. -/
def validMethodChar (orig_c : List Char) : Bool :=
  let c := jsToUpperCaseStr orig_c
  if jsStringLe ['A'] c && jsStringLe c ['Z'] then true
  else if c = ['('] ∨ c = [')'] then true
  else if jsStringLe ['0'] c && jsStringLe c ['9'] then true
  else if c = ['$'] ∨ c = ['_'] then true
  else false

/-- The per-character verdict of `validMethodChar`: the predicate applied to
a one-character string, as produced by in-range indexing. -/
def validMethodCharCh (c : Char) : Bool := validMethodChar [c]

/-- The identifier-character set as the spec's words (and claim C6) describe
it: ASCII letters case-insensitively, digits, parentheses, dollar and
underscore.  Kept separate from the source-derived `validMethodChar` so the
two can be compared; they differ on the sixteen characters listed at
`jsToUpperCase`. -/
def specIdentifierChar (c : Char) : Bool :=
  if ('a' ≤ c ∧ c ≤ 'z') ∨ ('A' ≤ c ∧ c ≤ 'Z') then true
  else if c = '(' ∨ c = ')' then true
  else if '0' ≤ c ∧ c ≤ '9' then true
  else if c = '$' ∨ c = '_' then true
  else false

/-- `LanguageServiceHost.validPosition` (lines 254-276).  `snapshot[0]` /
`snapshot[1]` are JavaScript bracket indexing, `undefined` out of range
(modelled by `List.get?`); passing `undefined` to `validMethodChar` throws a
`TypeError` (`undefined.toUpperCase()`), modelled as `none`. -/
def validPosition (content : List Char) (position : Nat) : Option Bool :=
  if position = 0 then
    some false
  else
    let snapshot := jsSubstring content ((position : Int) - 2) (position : Int)
    if snapshot.get? 1 = some '.' then
      (snapshot.get? 0).map validMethodCharCh
    else
      (snapshot.get? 1).map validMethodCharCh

/-- The final index of the backward scan in `LanguageServiceHost.getPrefix`
(line 283), shifted by one: `scanStop s (k+1)` runs the loop
`for (index = k; validMethodChar(s.charAt(index)); index--)` and returns the
final `index + 1` (so `0` means the loop ran past the start of the string,
where `charAt(-1)` is the empty string and stops it). -/
def scanStop (s : List Char) : Nat → Nat
  | 0 => 0
  | k + 1 => if validMethodChar (jsCharAt s (k : Int)) then scanStop s k else k + 1

/-- `LanguageServiceHost.getPrefix` (lines 278-291): take the text up to
`position`, scan backward over `validMethodChar` characters, and return the
identifier run when the stopping character is `.`, a space or a newline,
the empty string otherwise. -/
def getPrefix (content : List Char) (position : Nat) : List Char :=
  let snapshot := jsSubstring content 0 (position : Int)
  let stop := scanStop snapshot snapshot.length
  if jsCharAt snapshot ((stop : Int) - 1) = ['.']
      ∨ jsCharAt snapshot ((stop : Int) - 1) = [' ']
      ∨ jsCharAt snapshot ((stop : Int) - 1) = ['\n'] then
    snapshot.drop stop
  else
    []

/-- `Services.CompletionEntry`: only the `name` field is read by this core. -/
structure CompletionEntry where
  name : List Char
deriving DecidableEq, Repr

/-- `AutoCompletionInfo` (lines 26-28).  The `entries` array reference may in
principle be `null` in JavaScript (the source tests for that in lines
335-337), hence the `Option`. -/
structure AutoCompletionInfo where
  entries : Option (List CompletionEntry)
deriving DecidableEq, Repr

/-- `DetailedAutoCompletionInfo` (lines 30-33); the entry-detail payload
`Services.CompletionEntryDetails` is opaque to this core, hence the type
parameter. -/
structure DetailedAutoCompletionInfo (Detail : Type) where
  pruningPfx : List Char
  entries : List Detail
deriving DecidableEq, Repr

/-- The external completion engine (`this.languageService`), injected as a
capability: `getCompletionsAtPosition(fileName, position, isMemberCompletion)`
with `none` for a `null` response, and
`getCompletionEntryDetails(fileName, position, name)`.  The file name is fixed
by the enclosing host, so it is dropped here. -/
structure CompletionEngine (Detail : Type) where
  queryCompletions : Nat → Option (List CompletionEntry)
  queryEntryDetails : Nat → List Char → Detail

/-- `LanguageServiceHost.prefixMatch` (lines 372-374):
`str.indexOf(_prefix) === 0`, i.e. `str` starts with `_prefix`. -/
def prefixMatch : List Char → List Char → Bool
  | [], _ => true
  | _ :: _, [] => false
  | a :: as, b :: bs => a = b && prefixMatch as bs

/-- `LanguageServiceHost.knownToBreak` (lines 321-330): the hard-coded
denylist holds the single token `"$"`; the loop tests each entry with `===`. -/
def knownToBreak (pfx : List Char) : Bool :=
  let badPfx : List (List Char) := [['$']]
  badPfx.any (fun b => b = pfx)

/-- `LanguageServiceHost.getExplicitPrunedCompletionsAtPosition` (lines
352-370): query the engine in non-member mode; a `null` response yields
`{entries: []}`, otherwise keep the raw entries whose name matches the
pruning prefix, in order. -/
def getExplicitPrunedCompletionsAtPosition {Detail : Type}
    (engine : CompletionEngine Detail) (position : Nat) (pruningPfx : List Char) :
    AutoCompletionInfo :=
  match engine.queryCompletions position with
  | none => ⟨some []⟩
  | some rawEntries => ⟨some (rawEntries.filter (fun e => prefixMatch pruningPfx e.name))⟩

/-- `LanguageServiceHost.getDetailedExplicitPrunedCompletionsAtPosition`
(lines 332-350): a `null` entries array yields an empty result with empty
prefix; otherwise each surviving entry is enriched, in order, with its detail
record from the engine. -/
def getDetailedExplicitPrunedCompletionsAtPosition {Detail : Type}
    (engine : CompletionEngine Detail) (position : Nat) (pruningPfx : List Char) :
    DetailedAutoCompletionInfo Detail :=
  match (getExplicitPrunedCompletionsAtPosition engine position pruningPfx).entries with
  | none => ⟨[], []⟩
  | some entries => ⟨pruningPfx, entries.map (fun e => engine.queryEntryDetails position e.name)⟩

/-- `LanguageServiceHost.getDetailedImplicitlyPrunedCompletionsAtPosition`
(lines 309-319), the body of `getCompletionsAtPosition`: invalid positions
yield `{pruningPrefix: "", entries: []}`, a denylisted prefix short-circuits
with empty entries, and otherwise the pruned and enriched result is returned.
`none` propagates a `TypeError` thrown by `validPosition`. -/
def getDetailedImplicitlyPrunedCompletionsAtPosition {Detail : Type}
    (engine : CompletionEngine Detail) (content : List Char) (position : Nat) :
    Option (DetailedAutoCompletionInfo Detail) :=
  match validPosition content position with
  | none => none
  | some false => some ⟨[], []⟩
  | some true =>
    let pruningPfx := getPrefix content position
    if knownToBreak pruningPfx then
      some ⟨pruningPfx, []⟩
    else
      some (getDetailedExplicitPrunedCompletionsAtPosition engine position pruningPfx)

/-- `LanguageServiceHost.updateFileContents` (lines 187-189) restricted to a
registered buffer: `updateContent(content)` with the default
`resetChanges = true`. -/
def updateFileContents (b : ScriptSnapshot) (content : List Char) : ScriptSnapshot :=
  b.updateContent content true

/-- One content-mutating buffer operation of the facade: a full replace
(`updateFileContents` / `updateFile`, both delegating to `updateContent`) or
an incremental edit (`editFile`, delegating to `addEdit`). -/
inductive BufferOp where
  | replaceAll (s : List Char)
  | applyEdit (offset length : Int) (replacementText : List Char)
deriving DecidableEq, Repr

/-- Apply one mutation to a buffer. -/
def applyOp (b : ScriptSnapshot) : BufferOp → ScriptSnapshot
  | .replaceAll s => b.updateContent s true
  | .applyEdit offset length r => b.addEdit offset length r

/-- Apply a sequence of mutations, oldest first. -/
def applyOps (b : ScriptSnapshot) (ops : List BufferOp) : ScriptSnapshot :=
  ops.foldl applyOp b

/-- A concrete buffer with one recorded edit, for exercising
`getTextChangeRangeSinceVersion` on a concrete window. -/
def bufferOneEdit : ScriptSnapshot :=
  applyOps (mkScriptSnapshot ("ab".data)) [BufferOp.applyEdit 0 1 ("xy".data)]

/-- A concrete buffer whose change history is full (100 entries). -/
def bufferFullHistory : ScriptSnapshot :=
  applyOps (mkScriptSnapshot ['a']) (List.replicate 100 (BufferOp.applyEdit 0 0 []))

/-- A scripted engine response for exercising the pruning filter. -/
def rawEntriesPrint : List CompletionEntry :=
  [⟨"print".data⟩, ⟨"process".data⟩, ⟨"foo".data⟩]

/-- A scripted engine that returns `rawEntriesPrint` at every position. -/
def enginePrint : CompletionEngine Nat :=
  ⟨fun _ => some rawEntriesPrint, fun _ _ => 0⟩

/-- A scripted engine that would return an entry, to show the denylist
short-circuit never consults it. -/
def engineScripted : CompletionEngine Nat :=
  ⟨fun _ => some [⟨"anything".data⟩], fun _ _ => 0⟩

/-- A scripted engine that reports "no completions" (a `null` response) at
every position. -/
def engineNoResp : CompletionEngine Nat :=
  ⟨fun _ => none, fun _ _ => 0⟩

/-! ### Basic facts about the buffer operations -/

@[simp]
theorem updateContent_version (b : ScriptSnapshot) (s : List Char) (rc : Bool) :
    (b.updateContent s rc).version = b.version + 1 := by
  cases rc <;> rfl

@[simp]
theorem updateContent_content (b : ScriptSnapshot) (s : List Char) (rc : Bool) :
    (b.updateContent s rc).content = s := by
  cases rc <;> rfl

@[simp]
theorem updateContent_changes_true (b : ScriptSnapshot) (s : List Char) :
    (b.updateContent s true).changes = [] := rfl

@[simp]
theorem updateContent_changes_false (b : ScriptSnapshot) (s : List Char) :
    (b.updateContent s false).changes = b.changes := rfl

theorem addEdit_version (b : ScriptSnapshot) (o l : Int) (r : List Char) :
    (b.addEdit o l r).version = b.version + 1 := by
  unfold ScriptSnapshot.addEdit
  split <;> rfl

theorem addEdit_changes (b : ScriptSnapshot) (o l : Int) (r : List Char) :
    (b.addEdit o l r).changes =
      (if b.changes.length ≥ maxChanges then [] else b.changes)
        ++ [⟨o, o + l, (r.length : Int)⟩] := by
  unfold ScriptSnapshot.addEdit
  split <;> rfl

theorem addEdit_content (b : ScriptSnapshot) (o l : Int) (r : List Char) :
    (b.addEdit o l r).content =
      jsSubstring b.content 0 o ++ r ++ jsSubstring b.content (o + l) (b.content.length : Int) := by
  unfold ScriptSnapshot.addEdit
  split <;> rfl

theorem applyOp_version (b : ScriptSnapshot) (op : BufferOp) :
    (applyOp b op).version = b.version + 1 := by
  cases op with
  | replaceAll s => exact updateContent_version b s true
  | applyEdit o l r => exact addEdit_version b o l r

theorem applyOps_version (ops : List BufferOp) : ∀ b : ScriptSnapshot,
    (applyOps b ops).version = b.version + ops.length := by
  induction ops with
  | nil => intro b; rfl
  | cons op ops ih =>
    intro b
    have h1 : applyOps b (op :: ops) = applyOps (applyOp b op) ops := rfl
    rw [h1, ih, applyOp_version]
    simp
    omega

/-! ### C1 -/

/-- C1, counterexample: a freshly created buffer has version 1, not 0 — the
constructor performs an initial `updateContent`, which increments the
version. -/
theorem C1_cex :
    (mkScriptSnapshot ("abc".data)).version = 1
    ∧ (mkScriptSnapshot ("abc".data)).version ≠ 0 := by
  exact ⟨by decide, by decide⟩

/-- C1, amended: a freshly created buffer has version 1 (creation itself runs
one `updateContent`), `open = true` and an empty change history; after N
successful content mutations (replaceAll/updateContent or applyEdit/addEdit)
from a fresh buffer, the version equals N + 1. -/
theorem C1_fresh_buffer_and_version_count (init : List Char) (ops : List BufferOp) :
    (mkScriptSnapshot init).version = 1
    ∧ (mkScriptSnapshot init).openFlag = true
    ∧ (mkScriptSnapshot init).changes = []
    ∧ (applyOps (mkScriptSnapshot init) ops).version = ops.length + 1 := by
  refine ⟨rfl, rfl, rfl, ?_⟩
  rw [applyOps_version]
  have h1 : (mkScriptSnapshot init).version = 1 := rfl
  omega

/-! ### C2 -/

theorem jsClamp_of_nonpos (len : Nat) (i : Int) (h : i ≤ 0) : jsClamp len i = 0 := by
  unfold jsClamp
  omega

theorem jsClamp_of_ge (len : Nat) (i : Int) (h : (len : Int) ≤ i) : jsClamp len i = len := by
  unfold jsClamp
  omega

theorem jsSubstring_full (s : List Char) (a b : Int) (ha : a ≤ 0)
    (hb : (s.length : Int) ≤ b) : jsSubstring s a b = s := by
  unfold jsSubstring
  rw [jsClamp_of_nonpos _ _ ha, jsClamp_of_ge _ _ hb]
  simp

theorem jsSubstring_nil_of_ge (s : List Char) (a b : Int)
    (ha : (s.length : Int) ≤ a) (hb : (s.length : Int) ≤ b) : jsSubstring s a b = [] := by
  unfold jsSubstring
  rw [jsClamp_of_ge _ _ ha, jsClamp_of_ge _ _ hb]
  simp

/-- C2, counterexample: on the fresh buffer for `"abc"`, `addEdit(10, 5, "X")`
has `offset + length = 15 > 3 = length(content)` yet does not fail: the
offsets are clamped, the content becomes `"abcX"`, the version increments and
a change range is recorded; likewise `getText(0, 99)` succeeds by clamping. -/
theorem C2_cex :
    ((mkScriptSnapshot ("abc".data)).addEdit 10 5 ['X']).content = "abcX".data
    ∧ ((mkScriptSnapshot ("abc".data)).addEdit 10 5 ['X']).version
        = (mkScriptSnapshot ("abc".data)).version + 1
    ∧ ((mkScriptSnapshot ("abc".data)).addEdit 10 5 ['X']).changes = [⟨10, 15, 1⟩]
    ∧ (mkScriptSnapshot ("abc".data)).getText 0 99 = "abc".data := by
  exact ⟨by decide, by decide, by decide, by decide⟩

/-- C2, amended: `addEdit` and `getText` never signal an OutOfBounds error;
out-of-range offsets are silently clamped by JavaScript `substring` semantics.
An `addEdit` whose offset is at or beyond the end of the content still
succeeds: the replacement is appended, the version increments by one and a
change-range entry recording the unclamped offsets is appended to the history
(after the possible overflow clear); a `getText` whose range covers the whole
buffer returns the full content. -/
theorem C2_no_out_of_bounds (b : ScriptSnapshot) (offset length : Int) (r : List Char)
    (s e : Int)
    (hoff : (b.content.length : Int) ≤ offset) (hlen : 0 ≤ length)
    (hs : s ≤ 0) (he : (b.content.length : Int) ≤ e) :
    (b.addEdit offset length r).content = b.content ++ r
    ∧ (b.addEdit offset length r).version = b.version + 1
    ∧ (b.addEdit offset length r).changes =
        (if b.changes.length ≥ maxChanges then [] else b.changes)
          ++ [⟨offset, offset + length, (r.length : Int)⟩]
    ∧ b.getText s e = b.content := by
  refine ⟨?_, addEdit_version b offset length r, addEdit_changes b offset length r, ?_⟩
  · rw [addEdit_content]
    rw [jsSubstring_full _ _ _ le_rfl hoff]
    rw [jsSubstring_nil_of_ge _ _ _ (by omega) le_rfl]
    simp
  · unfold ScriptSnapshot.getText
    exact jsSubstring_full _ _ _ hs he

/-- C2, witness: the amended statement applied to the fresh `"abc"` buffer at
the out-of-range edit `(10, 5, "X")` and the read `getText(0, 99)`. -/
theorem C2_witness :
    ((mkScriptSnapshot ("abc".data)).addEdit 10 5 ['X']).content
        = (mkScriptSnapshot ("abc".data)).content ++ ['X']
    ∧ ((mkScriptSnapshot ("abc".data)).addEdit 10 5 ['X']).version
        = (mkScriptSnapshot ("abc".data)).version + 1
    ∧ ((mkScriptSnapshot ("abc".data)).addEdit 10 5 ['X']).changes =
        (if (mkScriptSnapshot ("abc".data)).changes.length ≥ maxChanges then []
          else (mkScriptSnapshot ("abc".data)).changes)
          ++ [⟨10, 10 + 5, ((['X'].length : Nat) : Int)⟩]
    ∧ (mkScriptSnapshot ("abc".data)).getText 0 99 = (mkScriptSnapshot ("abc".data)).content :=
  C2_no_out_of_bounds (mkScriptSnapshot ("abc".data)) 10 5 ['X'] 0 99
    (by decide) (by decide) (by decide) (by decide)

/-! ### C5 -/

/-- C5: the claim asserts that completion at position 1 of a one-character
buffer whose character is not an identifier character yields an ordinary
invalid result; the code instead reads `snapshot[1]` of a one-character
snapshot (`undefined`) and passes it to `validMethodChar`, which throws a
`TypeError` (`undefined.toUpperCase()`), modelled as `none`.  The crash
propagates out of `getCompletionsAtPosition` regardless of the engine. -/
theorem C5_validPosition_crashes_at_position_one :
    validPosition [' '] 1 = none
    ∧ validPosition ['.'] 1 = none
    ∧ ∀ engine : CompletionEngine Nat,
        getDetailedImplicitlyPrunedCompletionsAtPosition engine [' '] 1 = none := by
  exact ⟨by decide, by decide, fun engine => rfl⟩

/-! ### C10 -/

/-- C10: for every buffer and every string `s`, a full replace
(`updateFileContents`, i.e. `updateContent` with `resetChanges = true`)
increments the version by exactly one and clears the change history — even
when `s` equals the current content, there is no no-op detection — and
afterwards every incremental delta from any older version is "unknown". -/
theorem C10_replaceAll_always_mutates (b : ScriptSnapshot) (s : List Char) :
    (updateFileContents b s).version = b.version + 1
    ∧ (updateFileContents b s).changes = []
    ∧ (updateFileContents b s).content = s
    ∧ ∀ v : Nat, v < b.version + 1 →
        (updateFileContents b s).getTextChangeRangeSinceVersion v = ChangeRangeResult.unknown := by
  refine ⟨updateContent_version b s true, rfl, updateContent_content b s true, ?_⟩
  intro v hv
  unfold ScriptSnapshot.getTextChangeRangeSinceVersion
  have h1 : (updateFileContents b s).version = b.version + 1 := updateContent_version b s true
  have h2 : (updateFileContents b s).changes = [] := rfl
  rw [if_neg (by omega), if_neg ?_]
  rw [h1, h2]
  simp
  omega

/-- C10, witness: replacing the fresh `"abc"` buffer's content with the
identical string `"abc"` still bumps the version to 2, clears the history and
invalidates the delta from version 1. -/
theorem C10_witness :
    (updateFileContents (mkScriptSnapshot ("abc".data)) ("abc".data)).version
        = (mkScriptSnapshot ("abc".data)).version + 1
    ∧ (updateFileContents (mkScriptSnapshot ("abc".data)) ("abc".data)).changes = []
    ∧ (updateFileContents (mkScriptSnapshot ("abc".data)) ("abc".data)).content = "abc".data
    ∧ (updateFileContents (mkScriptSnapshot ("abc".data)) ("abc".data)).getTextChangeRangeSinceVersion 1
        = ChangeRangeResult.unknown :=
  ⟨(C10_replaceAll_always_mutates (mkScriptSnapshot ("abc".data)) ("abc".data)).1,
   (C10_replaceAll_always_mutates (mkScriptSnapshot ("abc".data)) ("abc".data)).2.1,
   (C10_replaceAll_always_mutates (mkScriptSnapshot ("abc".data)) ("abc".data)).2.2.1,
   (C10_replaceAll_always_mutates (mkScriptSnapshot ("abc".data)) ("abc".data)).2.2.2 1 (by decide)⟩

/-! ### C3 -/

theorem mergeChangeRange_delta (r1 r2 : TextChangeRange) :
    changeRangeDelta (mergeChangeRange r1 r2) = changeRangeDelta r1 + changeRangeDelta r2 := by
  simp only [mergeChangeRange, changeRangeDelta]
  omega

theorem foldl_mergeChangeRange_delta (cs : List TextChangeRange) : ∀ c : TextChangeRange,
    changeRangeDelta (cs.foldl mergeChangeRange c)
      = changeRangeDelta c + (cs.map changeRangeDelta).sum := by
  induction cs with
  | nil => intro c; simp
  | cons d cs ih =>
    intro c
    simp only [List.foldl_cons, List.map_cons, List.sum_cons]
    rw [ih, mergeChangeRange_delta]
    ring

theorem collapse_delta (c : TextChangeRange) (cs : List TextChangeRange) :
    changeRangeDelta (collapseChangesAcrossMultipleVersions (c :: cs))
      = ((c :: cs).map changeRangeDelta).sum := by
  simp only [collapseChangesAcrossMultipleVersions, List.map_cons, List.sum_cons]
  rw [foldl_mergeChangeRange_delta]

theorem jsSlice_nonneg {α : Type} (l : List α) (i : Int) (h : 0 ≤ i) :
    jsSlice l i = l.drop i.toNat := by
  simp only [jsSlice]
  rw [if_neg (by omega)]
  rcases le_or_lt i (l.length : Int) with hle | hlt
  · rw [min_eq_left hle]
  · rw [min_eq_right (le_of_lt hlt)]
    rw [show ((l.length : Int)).toNat = l.length by omega]
    rw [List.drop_length]
    exact (List.drop_eq_nil_of_le (by omega)).symm

/-- C3: `getTextChangeRangeSinceVersion(oldVersion)` on a buffer whose current
version is at least `oldVersion` returns the "no change" sentinel exactly when
`oldVersion` is the current version; when `0 < version - oldVersion ≤
length(history)` it returns the last `version - oldVersion` history entries
collapsed into one merged `ChangeRange` whose net length delta is the sum of
each entry's individual net length delta; otherwise it returns `null`
("unknown") rather than raising an error. -/
theorem C3_getTextChangeRangeSince (b : ScriptSnapshot) (oldVersion : Nat)
    (h : oldVersion ≤ b.version) :
    (b.getTextChangeRangeSinceVersion oldVersion = ChangeRangeResult.unchanged
      ↔ oldVersion = b.version)
    ∧ (0 < b.version - oldVersion → b.version - oldVersion ≤ b.changes.length →
        b.getTextChangeRangeSinceVersion oldVersion
          = ChangeRangeResult.collapsed (collapseChangesAcrossMultipleVersions
              (b.changes.drop (b.changes.length - (b.version - oldVersion))))
        ∧ (b.changes.drop (b.changes.length - (b.version - oldVersion))).length
            = b.version - oldVersion
        ∧ changeRangeDelta (collapseChangesAcrossMultipleVersions
              (b.changes.drop (b.changes.length - (b.version - oldVersion))))
            = ((b.changes.drop (b.changes.length - (b.version - oldVersion))).map
                changeRangeDelta).sum)
    ∧ (b.changes.length < b.version - oldVersion →
        b.getTextChangeRangeSinceVersion oldVersion = ChangeRangeResult.unknown) := by
  refine ⟨?_, ?_, ?_⟩
  · constructor
    · intro hres
      by_contra hne
      unfold ScriptSnapshot.getTextChangeRangeSinceVersion at hres
      rw [if_neg (fun hh => hne hh.symm)] at hres
      split at hres <;> simp at hres
    · intro he
      unfold ScriptSnapshot.getTextChangeRangeSinceVersion
      rw [if_pos he.symm]
  · intro h1 h2
    have heq : b.getTextChangeRangeSinceVersion oldVersion
        = ChangeRangeResult.collapsed (collapseChangesAcrossMultipleVersions
            (b.changes.drop (b.changes.length - (b.version - oldVersion)))) := by
      unfold ScriptSnapshot.getTextChangeRangeSinceVersion
      rw [if_neg (by omega), if_pos (by omega)]
      have harg : ((b.changes.length : Int)
            - ((b.version : Int) - (oldVersion : Int))).toNat
          = b.changes.length - (b.version - oldVersion) := by
        omega
      rw [jsSlice_nonneg _ _ (by omega), harg]
    refine ⟨heq, by rw [List.length_drop]; omega, ?_⟩
    rcases hw : b.changes.drop (b.changes.length - (b.version - oldVersion)) with _ | ⟨c, cs⟩
    · exfalso
      have := congrArg List.length hw
      rw [List.length_drop] at this
      simp at this
      omega
    · exact collapse_delta c cs
  · intro h3
    unfold ScriptSnapshot.getTextChangeRangeSinceVersion
    rw [if_neg (by omega), if_neg (by omega)]

/-- C3, witness: on the concrete one-edit buffer, the delta since the current
version (2) is the sentinel and the delta since version 1 is the collapsed
single-entry window. -/
theorem C3_witness :
    bufferOneEdit.getTextChangeRangeSinceVersion 2 = ChangeRangeResult.unchanged
    ∧ bufferOneEdit.getTextChangeRangeSinceVersion 1
        = ChangeRangeResult.collapsed (collapseChangesAcrossMultipleVersions
            (bufferOneEdit.changes.drop
              (bufferOneEdit.changes.length - (bufferOneEdit.version - 1)))) :=
  ⟨(C3_getTextChangeRangeSince bufferOneEdit 2 (by decide)).1.mpr (by decide),
   ((C3_getTextChangeRangeSince bufferOneEdit 1 (by decide)).2.1 (by decide) (by decide)).1⟩

/-! ### C4 -/

theorem addEdit_changes_length_le (b : ScriptSnapshot) (o l : Int) (r : List Char) :
    (b.addEdit o l r).changes.length ≤ maxChanges := by
  rw [addEdit_changes]
  by_cases hc : b.changes.length ≥ maxChanges
  · rw [if_pos hc]
    simp [maxChanges]
  · rw [if_neg hc]
    simp
    omega

theorem applyOp_changes_length_le (b : ScriptSnapshot) (op : BufferOp) :
    (applyOp b op).changes.length ≤ maxChanges := by
  cases op with
  | replaceAll s => simp [applyOp]
  | applyEdit o l r => exact addEdit_changes_length_le b o l r

theorem applyOps_changes_length_le (ops : List BufferOp) : ∀ b : ScriptSnapshot,
    b.changes.length ≤ maxChanges → (applyOps b ops).changes.length ≤ maxChanges := by
  induction ops with
  | nil => intro b hb; exact hb
  | cons op ops ih =>
    intro b _
    exact ih (applyOp b op) (applyOp_changes_length_le b op)

set_option maxRecDepth 8000 in
/-- C4: for every operation sequence from a fresh buffer the change history
never exceeds `maxChanges` (100) entries; an `addEdit` on a full history
clears it entirely before appending, leaving exactly the one new entry; and
after 101 sequential edits on a fresh buffer the delta from version 0 is
"unknown" (`null`), not a thrown error. -/
theorem C4_history_bound :
    (∀ (init : List Char) (ops : List BufferOp),
        (applyOps (mkScriptSnapshot init) ops).changes.length ≤ maxChanges)
    ∧ (∀ (b : ScriptSnapshot) (o l : Int) (r : List Char),
        b.changes.length = maxChanges →
        (b.addEdit o l r).changes = [⟨o, o + l, (r.length : Int)⟩])
    ∧ (applyOps (mkScriptSnapshot ['a'])
          (List.replicate 101 (BufferOp.applyEdit 0 0 []))).getTextChangeRangeSinceVersion 0
        = ChangeRangeResult.unknown := by
  refine ⟨?_, ?_, by decide⟩
  · intro init ops
    apply applyOps_changes_length_le
    have h1 : (mkScriptSnapshot init).changes = [] := rfl
    rw [h1]
    simp
  · intro b o l r hfull
    rw [addEdit_changes, if_pos (by omega)]
    rfl

set_option maxRecDepth 8000 in
/-- C4, witness: an `addEdit` on the concrete buffer whose history holds
exactly 100 entries leaves a history of exactly the one new entry. -/
theorem C4_witness :
    (bufferFullHistory.addEdit 5 2 ['z']).changes = [⟨5, 5 + 2, ((['z'].length : Nat) : Int)⟩] :=
  C4_history_bound.2.1 bufferFullHistory 5 2 ['z'] (by decide)

/-! ### C6 -/

theorem validMethodChar_singleton (c : Char) : validMethodChar [c] = validMethodCharCh c := rfl

theorem jsCharAt_neg (s : List Char) (i : Int) (h : i < 0) : jsCharAt s i = [] := by
  unfold jsCharAt
  rw [if_pos h]

theorem jsCharAt_of_get (s : List Char) (j : Nat) (c : Char) (h : s.get? j = some c) :
    jsCharAt s (j : Int) = [c] := by
  unfold jsCharAt
  rw [if_neg (by omega)]
  rw [show ((j : Int)).toNat = j by omega, h]

theorem scanStop_succ_valid (s : List Char) (k : Nat)
    (h : validMethodChar (jsCharAt s (k : Int)) = true) :
    scanStop s (k + 1) = scanStop s k := by
  simp [scanStop, h]

theorem scanStop_succ_invalid (s : List Char) (k : Nat)
    (h : validMethodChar (jsCharAt s (k : Int)) = false) :
    scanStop s (k + 1) = k + 1 := by
  simp [scanStop, h]

theorem scanStop_all_valid (s : List Char) (n : Nat) : ∀ k : Nat,
    (∀ j : Nat, k ≤ j → j < k + n → validMethodChar (jsCharAt s (j : Int)) = true) →
    scanStop s (k + n) = scanStop s k := by
  induction n with
  | zero => intro k _; rfl
  | succ n ih =>
    intro k hval
    have hv := hval (k + n) (by omega) (by omega)
    have hstep : k + (n + 1) = (k + n) + 1 := by omega
    rw [hstep, scanStop_succ_valid s (k + n) hv]
    exact ih k (fun j h1 h2 => hval j h1 (by omega))

theorem get?_append_cons_self (pre : List Char) (c : Char) (suffix : List Char) :
    (pre ++ c :: suffix).get? pre.length = some c := by
  rw [List.get?_eq_getElem?, List.getElem?_append_right (le_refl _)]
  simp

theorem get?_append_cons_suffix (pre : List Char) (c : Char) (suffix : List Char) (m : Nat) :
    (pre ++ c :: suffix).get? (pre.length + 1 + m) = suffix.get? m := by
  rw [List.get?_eq_getElem?, List.getElem?_append_right (by omega)]
  rw [show pre.length + 1 + m - pre.length = m + 1 by omega]
  simp [List.get?_eq_getElem?]

theorem scanStop_decomp (pre : List Char) (c : Char) (suffix : List Char)
    (hsuffix : ∀ x ∈ suffix, validMethodCharCh x = true)
    (hc : validMethodCharCh c = false) :
    scanStop (pre ++ c :: suffix) (pre ++ c :: suffix).length = pre.length + 1 := by
  have hlen : (pre ++ c :: suffix).length = (pre.length + 1) + suffix.length := by
    simp
    omega
  rw [hlen]
  rw [scanStop_all_valid (pre ++ c :: suffix) suffix.length (pre.length + 1) ?_]
  · apply scanStop_succ_invalid
    rw [jsCharAt_of_get _ _ _ (get?_append_cons_self pre c suffix)]
    rw [validMethodChar_singleton]
    exact hc
  · intro j h1 h2
    obtain ⟨m, rfl⟩ : ∃ m, j = pre.length + 1 + m := ⟨j - (pre.length + 1), by omega⟩
    have hm : m < suffix.length := by omega
    have hget : suffix.get? m = some (suffix.get ⟨m, hm⟩) := List.get?_eq_get hm
    rw [jsCharAt_of_get _ _ _ (by rw [get?_append_cons_suffix]; exact hget)]
    rw [validMethodChar_singleton]
    exact hsuffix _ (List.get_mem suffix m hm)

theorem take_min_length (s : List Char) (p : Nat) : s.take (min p s.length) = s.take p := by
  rcases le_total p s.length with h | h
  · rw [min_eq_left h]
  · rw [min_eq_right h, List.take_length, List.take_of_length_le h]

theorem jsSubstring_zero_take (s : List Char) (p : Nat) :
    jsSubstring s 0 (p : Int) = s.take p := by
  simp only [jsSubstring]
  rw [jsClamp_of_nonpos _ _ (le_refl 0)]
  have hb : jsClamp s.length (p : Int) = min p s.length := by
    unfold jsClamp
    omega
  rw [hb]
  simp [take_min_length]

theorem drop_append_cons (pre : List Char) (c : Char) (suffix : List Char) :
    (pre ++ c :: suffix).drop (pre.length + 1) = suffix := by
  have h : pre ++ c :: suffix = (pre ++ [c]) ++ suffix := by simp
  rw [h, show pre.length + 1 = (pre ++ [c]).length by simp]
  exact List.drop_left _ _

/-- C6, counterexample: in the buffer `".ßx"` (`ß` = U+00DF) with the cursor
at position 3, under the claim's ASCII identifier-character set the backward
scan stops at `ß`, which is neither `.` nor a space nor a newline, so the
claim requires the empty prefix; the program instead treats `ß` as an
identifier character (`"ß".toUpperCase()` is `"SS"`, which falls between
`"A"` and `"Z"`), scans past it, stops at `.` and returns the prefix
`"ßx"`. -/
theorem C6_cex :
    (['.', Char.ofNat 0xDF, 'x'] : List Char).take 3
        = ['.'] ++ Char.ofNat 0xDF :: ['x']
    ∧ (∀ x ∈ (['x'] : List Char), specIdentifierChar x = true)
    ∧ specIdentifierChar (Char.ofNat 0xDF) = false
    ∧ ¬(Char.ofNat 0xDF = '.' ∨ Char.ofNat 0xDF = ' ' ∨ Char.ofNat 0xDF = '\n')
    ∧ getPrefix ['.', Char.ofNat 0xDF, 'x'] 3 = [Char.ofNat 0xDF, 'x']
    ∧ ([Char.ofNat 0xDF, 'x'] : List Char) ≠ [] := by
  exact ⟨by decide, by decide, by decide, by decide, by decide, by decide⟩

/-- C6, amended: for every text and position, scanning backward from
`position` over characters satisfying the program's identifier-character
predicate `validMethodCharCh` — which accepts the claim's ASCII letters,
digits, `(`, `)`, `$` and `_`, and additionally the characters whose full
Unicode uppercase mapping falls between `"A"` and `"Z"`, such as `ß` and
`ſ` (see `jsToUpperCase`) — if the first non-matching character is `.`, a
space or a newline then the prefix is the identifier run after that boundary,
and otherwise (buffer start — all scanned characters match — or any other
boundary character) the prefix is empty; in particular `"object.pr"` at
position 9 yields `"pr"` and `"foo bar"` at position 7 yields `"bar"`. -/
theorem C6_getPrefix_characterisation (content : List Char) (position : Nat) :
    (∀ (pre : List Char) (c : Char) (suffix : List Char),
        content.take position = pre ++ c :: suffix →
        (∀ x ∈ suffix, validMethodCharCh x = true) →
        validMethodCharCh c = false →
        getPrefix content position =
          (if c = '.' ∨ c = ' ' ∨ c = '\n' then suffix else []))
    ∧ ((∀ x ∈ content.take position, validMethodCharCh x = true) →
        getPrefix content position = [])
    ∧ getPrefix ("object.pr".data) 9 = "pr".data
    ∧ getPrefix ("foo bar".data) 7 = "bar".data := by
  refine ⟨?_, ?_, by decide, by decide⟩
  · intro pre c suffix hdec hsuf hc
    simp only [getPrefix]
    rw [jsSubstring_zero_take, hdec]
    rw [scanStop_decomp pre c suffix hsuf hc]
    rw [show ((pre.length + 1 : Nat) : Int) - 1 = (pre.length : Int) by omega]
    rw [jsCharAt_of_get _ _ _ (get?_append_cons_self pre c suffix)]
    rw [drop_append_cons]
    simp only [List.cons.injEq, and_true]
  · intro hall
    simp only [getPrefix]
    rw [jsSubstring_zero_take]
    have hstop : scanStop (content.take position) (content.take position).length = 0 := by
      have h0 : (content.take position).length = 0 + (content.take position).length := by
        omega
      rw [h0]
      rw [scanStop_all_valid (content.take position) (content.take position).length 0 ?_]
      · rfl
      · intro j h1 h2
        have hj : j < (content.take position).length := by omega
        have hget := List.get?_eq_get hj
        rw [jsCharAt_of_get _ _ _ hget, validMethodChar_singleton]
        exact hall _ (List.get_mem _ j hj)
    rw [hstop]
    rw [jsCharAt_neg _ _ (by omega)]
    simp

/-- C6, witness: in `"a b"` with the cursor at position 3, the scan stops at
the space and the prefix is the identifier run `"b"` after it. -/
theorem C6_witness : getPrefix ("a b".data) 3 = ['b'] := by
  have h := (C6_getPrefix_characterisation ("a b".data) 3).1 ['a'] ' ' ['b']
    (by decide) (by decide) (by decide)
  rw [h]
  decide

/-! ### C7 -/

theorem prefixMatch_iff (p : List Char) : ∀ s : List Char,
    prefixMatch p s = true ↔ ∃ t, s = p ++ t := by
  induction p with
  | nil =>
    intro s
    simp only [prefixMatch, List.nil_append, true_iff]
    exact ⟨s, rfl⟩
  | cons a as ih =>
    intro s
    cases s with
    | nil => simp [prefixMatch]
    | cons b bs =>
      simp only [prefixMatch, Bool.and_eq_true, decide_eq_true_eq, ih bs,
        List.cons_append, List.cons.injEq]
      constructor
      · rintro ⟨hab, t, ht⟩
        exact ⟨t, hab.symm, ht⟩
      · rintro ⟨t, hab, ht⟩
        exact ⟨hab.symm, t, ht⟩

/-- C7: for every raw entry list and computed prefix, the pruning step keeps
exactly the entries whose name starts with the prefix (character-for-character
equality, i.e. case-sensitive ordinal comparison), preserving their relative
order from the engine's response, and an empty prefix keeps every entry
unchanged. -/
theorem C7_prefixFilter {Detail : Type} (engine : CompletionEngine Detail)
    (position : Nat) (pruningPfx : List Char) (raw : List CompletionEntry)
    (hresp : engine.queryCompletions position = some raw) :
    (getExplicitPrunedCompletionsAtPosition engine position pruningPfx).entries
        = some (raw.filter (fun e => prefixMatch pruningPfx e.name))
    ∧ (raw.filter (fun e => prefixMatch pruningPfx e.name)).Sublist raw
    ∧ (∀ e : CompletionEntry,
        e ∈ raw.filter (fun e => prefixMatch pruningPfx e.name)
          ↔ e ∈ raw ∧ prefixMatch pruningPfx e.name = true)
    ∧ (∀ s : List Char, prefixMatch pruningPfx s = true ↔ ∃ t, s = pruningPfx ++ t)
    ∧ (pruningPfx = [] → raw.filter (fun e => prefixMatch pruningPfx e.name) = raw) := by
  refine ⟨?_, List.filter_sublist raw, ?_, prefixMatch_iff pruningPfx, ?_⟩
  · unfold getExplicitPrunedCompletionsAtPosition
    rw [hresp]
  · intro e
    simp [List.mem_filter]
  · rintro rfl
    apply List.filter_eq_self.mpr
    intro a _
    rfl

/-- C7, witness: with raw entries named `print`, `process`, `foo` and prefix
`"pr"`, the filter keeps `print` and `process` in their original order. -/
theorem C7_witness :
    (getExplicitPrunedCompletionsAtPosition enginePrint 9 ("pr".data)).entries
      = some [⟨"print".data⟩, ⟨"process".data⟩] := by
  have h := (C7_prefixFilter enginePrint 9 ("pr".data) rawEntriesPrint rfl).1
  rw [h]
  decide

/-! ### C8 -/

/-- C8: for every engine, buffer text and valid position whose computed
prefix is exactly `"$"`, `getCompletionsAtPosition` returns
`{pruningPrefix: "$", entries: []}` without consulting the engine: the result
is this constant for every possible engine. -/
theorem C8_denylist {Detail : Type} (engine : CompletionEngine Detail)
    (content : List Char) (position : Nat)
    (hvalid : validPosition content position = some true)
    (hpfx : getPrefix content position = ['$']) :
    getDetailedImplicitlyPrunedCompletionsAtPosition engine content position
      = some ⟨['$'], []⟩ := by
  unfold getDetailedImplicitlyPrunedCompletionsAtPosition
  rw [hvalid]
  simp [hpfx, knownToBreak]

/-- C8, witness: in the buffer `" $"` at position 2 the prefix is `"$"` and
the result short-circuits, with an engine scripted to return an entry. -/
theorem C8_witness :
    getDetailedImplicitlyPrunedCompletionsAtPosition engineScripted (" $".data) 2
      = some ⟨['$'], []⟩ :=
  C8_denylist engineScripted (" $".data) 2 (by decide) (by decide)

/-! ### C9 -/

/-- C9, counterexample: in the buffer `" a"` at the valid position 2, with an
engine reporting "no completions" (`null`), the call succeeds with empty
entries but the prefix of the result is the computed prefix `"a"`, not the
empty string the claim requires. -/
theorem C9_cex :
    getDetailedImplicitlyPrunedCompletionsAtPosition engineNoResp (" a".data) 2
      = some ⟨['a'], []⟩
    ∧ (['a'] : List Char) ≠ [] := by
  exact ⟨by decide, by decide⟩

/-- C9, amended: when the engine reports "no completions" (`null`) for a
valid, non-denylisted position, `getCompletionsAtPosition` succeeds (it is
not an error) with an empty entry list, and the prefix of the result is the
computed pruning prefix (the empty-string prefix arises only when the
position itself is invalid). -/
theorem C9_engine_null {Detail : Type} (engine : CompletionEngine Detail)
    (content : List Char) (position : Nat)
    (hvalid : validPosition content position = some true)
    (hsafe : knownToBreak (getPrefix content position) = false)
    (hresp : engine.queryCompletions position = none) :
    getDetailedImplicitlyPrunedCompletionsAtPosition engine content position
      = some ⟨getPrefix content position, []⟩ := by
  unfold getDetailedImplicitlyPrunedCompletionsAtPosition
  rw [hvalid]
  simp [hsafe, getDetailedExplicitPrunedCompletionsAtPosition,
    getExplicitPrunedCompletionsAtPosition, hresp]

/-- C9, witness: the amended statement applied to the buffer `" a"` at
position 2 with the `null`-responding engine. -/
theorem C9_witness :
    getDetailedImplicitlyPrunedCompletionsAtPosition engineNoResp (" a".data) 2
      = some ⟨getPrefix (" a".data) 2, []⟩ :=
  C9_engine_null engineNoResp (" a".data) 2 (by decide) (by decide) rfl

end Bridge
